import Mathlib

/-!
# Verification of the incremental hash map (`src/structs/src/hmap`)

Shallow embedding of `HMap` (`src/structs/src/hmap/mod.rs`) and
`BucketList` (`src/structs/src/hmap/bucket_list.rs`).  Rust's in-place
mutation becomes explicit state passing; `usize` becomes `Nat`
(the quantities involved — lengths, counts, cursors — never overflow in the
abstract model, matching the spec's "never exhausts memory" idealisation).
-/

set_option autoImplicit false
set_option linter.unusedSectionVars false

namespace HmapVerify

/-- Modelled from the spec: the repository declares `mod hasher;` but
`src/structs/src/hmap/hasher.rs` is not among the sources.  The spec says only
that the seed is "a 64-bit value … mixed into every hash computation for this
bank only".  We therefore model the seeded hash as an arbitrary function of the
seed and the key, and settle every claim for all such functions. -/
abbrev HashFn (K : Type) : Type := Nat → K → Nat

variable {K V : Type} [DecidableEq K]

/-- `BucketList<K, V>` from `bucket_list.rs`: a seed, a cached entry count and
the bucket array (`Vec<Vec<(K, V)>>` becomes `List (List (K × V))`). -/
structure BucketList (K V : Type) where
  seed : Nat
  len : Nat
  buckets : List (List (K × V))
deriving Repr, DecidableEq

/-- `pub(super) const BSIZE: usize = 8;` -/
def BSIZE : Nat := 8

namespace BucketList

/-- `BucketList::new`: one empty bucket, zero entries.  The randomly drawn
seed (`rand::random()`) is passed in as a parameter. -/
def new (seed : Nat) : BucketList K V :=
  { seed := seed, len := 0, buckets := [[]] }

/-- `self.buckets.len()` (`b_len` in the source). -/
def b_len (bl : BucketList K V) : Nat := bl.buckets.length

/-- The bucket index `(hash(self.seed, &k) as usize) % self.buckets.len()`
computed by `push`, `get` and `get_mut`. -/
def hIdx (hash : HashFn K) (bl : BucketList K V) (k : K) : Nat :=
  hash bl.seed k % bl.buckets.length

/-- `BucketList::push`: append `(k, v)` to chain `hIdx k`, bump `len`, and
return the new chain length together with the new state. -/
def push (hash : HashFn K) (bl : BucketList K V) (k : K) (v : V) :
    BucketList K V × Nat :=
  let h := hIdx hash bl k
  let chain := bl.buckets.getD h [] ++ [(k, v)]
  ({ bl with buckets := bl.buckets.set h chain, len := bl.len + 1 },
   chain.length)

/-- The linear scan of one chain performed by `BucketList::get`:
return the value of the first entry whose key equals `k`. -/
def listFind (k : K) : List (K × V) → Option V
  | [] => none
  | (ik, iv) :: rest => if k = ik then some iv else listFind k rest

/-- `BucketList::get`: scan chain `hIdx k` for the first key match. -/
def get (hash : HashFn K) (bl : BucketList K V) (k : K) : Option V :=
  listFind k (bl.buckets.getD (hIdx hash bl k) [])

/-- The effect of `BucketList::get_mut` followed by `*iv = v`: replace the
value of the first entry of the chain whose key equals `k`; `none` when no
entry matches (the stored key is kept, as in the source). -/
def listUpdate (k : K) (v : V) : List (K × V) → Option (List (K × V))
  | [] => none
  | (ik, iv) :: rest =>
      if k = ik then some ((ik, v) :: rest)
      else (listUpdate k v rest).map ((ik, iv) :: ·)

/-- `get_mut` + write-through on a whole bank: update the value stored under
`k` in chain `hIdx k`, or `none` if `k` is absent from that chain. -/
def updateVal (hash : HashFn K) (bl : BucketList K V) (k : K) (v : V) :
    Option (BucketList K V) :=
  let h := hIdx hash bl k
  (listUpdate k v (bl.buckets.getD h [])).map fun c =>
    { bl with buckets := bl.buckets.set h c }

/-- `BucketList::bucket` (the spec's `take_bucket`): out of range returns
`none` and leaves the bank unchanged; otherwise swaps chain `n` with the empty
chain, subtracts its length from `len`, and returns the taken chain. -/
def bucket (bl : BucketList K V) (n : Nat) :
    Option (List (K × V)) × BucketList K V :=
  if n ≥ bl.buckets.length then (none, bl)
  else
    let res := bl.buckets.getD n []
    (some res,
     { bl with buckets := bl.buckets.set n [], len := bl.len - res.length })

/-- `BucketList::set_buckets` (the spec's `ensure_capacity`): push empty
chains until there are `n` buckets; no-op when there are already `≥ n`. -/
def set_buckets (bl : BucketList K V) (n : Nat) : BucketList K V :=
  { bl with buckets := bl.buckets ++ List.replicate (n - bl.buckets.length) [] }

/-- All entries of the bank, in bucket order. -/
def entries (bl : BucketList K V) : List (K × V) := bl.buckets.flatten

/-- `k` is stored somewhere in the bank. -/
def hasKey (bl : BucketList K V) (k : K) : Prop :=
  k ∈ bl.entries.map Prod.fst

instance (bl : BucketList K V) (k : K) : Decidable (bl.hasKey k) := by
  unfold hasKey; infer_instance

/-- The representation invariant named by the spec for a bank alone:
`count` equals the sum of chain lengths, and the bucket array is never
empty. -/
structure RepOk (bl : BucketList K V) : Prop where
  ne : bl.buckets ≠ []
  lenEq : bl.len = (bl.buckets.map List.length).sum

/-- Full well-formedness of a bank: the representation invariant plus hash
placement (chain `i` holds exactly the entries hashing to `i`) and
within-chain key uniqueness. -/
structure WF (hash : HashFn K) (bl : BucketList K V) : Prop where
  ne : bl.buckets ≠ []
  lenEq : bl.len = (bl.buckets.map List.length).sum
  placed : ∀ i c, bl.buckets[i]? = some c →
    ∀ kv ∈ c, hash bl.seed kv.1 % bl.buckets.length = i
  nodup : ∀ c ∈ bl.buckets, (c.map Prod.fst).Nodup

end BucketList

/-- `HMap<K, V>` from `mod.rs`: migration cursor plus the two banks. -/
structure HMap (K V : Type) where
  n_moved : Nat
  main : BucketList K V
  grow : BucketList K V
deriving Repr, DecidableEq

namespace HMap

/-- `HMap::new`; the two random seeds are passed in as parameters. -/
def new (seedM seedG : Nat) : HMap K V :=
  { n_moved := 0, main := .new seedM, grow := .new seedG }

/-- Replaying a taken chain into a bank: `for (k, v) in b { grow.push(k, v) }`. -/
def replay (hash : HashFn K) (g : BucketList K V) (b : List (K × V)) :
    BucketList K V :=
  b.foldl (fun g kv => (g.push hash kv.1 kv.2).1) g

/-- `HMap::move_bucket`. -/
def moveBucket (hash : HashFn K) (s : HMap K V) : HMap K V :=
  let s :=
    if s.n_moved = 0 then
      { s with grow := s.grow.set_buckets (s.main.b_len * 2) }
    else s
  match s.main.bucket s.n_moved with
  | (some b, m') =>
      { s with main := m', grow := replay hash s.grow b,
               n_moved := s.n_moved + 1 }
  | (none, _) =>
      { n_moved := 0, main := s.grow, grow := s.main }

/-- `HMap::insert`. -/
def insert (hash : HashFn K) (s : HMap K V) (k : K) (v : V) : HMap K V :=
  match s.main.updateVal hash k v with
  | some m' => { s with main := m' }
  | none =>
    match s.grow.updateVal hash k v with
    | some g' => { s with grow := g' }
    | none =>
      if 0 < s.n_moved then
        moveBucket hash { s with grow := (s.grow.push hash k v).1 }
      else
        let p := s.main.push hash k v
        let s' := { s with main := p.1 }
        if p.2 > BSIZE / 2 then moveBucket hash s' else s'

/-- `HMap::get`. -/
def get (hash : HashFn K) (s : HMap K V) (k : K) : Option V :=
  (s.main.get hash k).or (s.grow.get hash k)

/-- `HMap::len`. -/
def len (s : HMap K V) : Nat := s.main.len + s.grow.len

/-- `HMap::is_empty`. -/
def isEmpty (s : HMap K V) : Bool := s.main.len == 0 && s.grow.len == 0

/-- States reachable from a freshly constructed map by the mutating public
interface (`insert`; `get`, `len` and `is_empty` do not change the state). -/
inductive Reachable (hash : HashFn K) : HMap K V → Prop
  | new (seedM seedG : Nat) : Reachable hash (HMap.new seedM seedG)
  | insert {s : HMap K V} (k : K) (v : V) :
      Reachable hash s → Reachable hash (s.insert hash k v)

/-- Running a sequence of inserts from a given state. -/
def runFrom (hash : HashFn K) (s : HMap K V) (l : List (K × V)) : HMap K V :=
  l.foldl (fun s kv => s.insert hash kv.1 kv.2) s

/-- Running a sequence of inserts from a freshly constructed map. -/
def run (hash : HashFn K) (seedM seedG : Nat) (l : List (K × V)) : HMap K V :=
  runFrom hash (HMap.new seedM seedG) l

/-- Well-formedness of the whole map: both banks well-formed, banks disjoint
on keys, a Stable state has an empty overflow bank no larger than the active
one, a Migrating state has an overflow bank of exactly twice the active
bucket count, the cursor never exceeds the active bucket count, and every
bucket strictly below the cursor has already been drained. -/
structure WF (hash : HashFn K) (s : HMap K V) : Prop where
  wfM : s.main.WF hash
  wfG : s.grow.WF hash
  disj : ∀ k, s.main.hasKey k → ¬ s.grow.hasKey k
  stableEmpty : s.n_moved = 0 → s.grow.len = 0
  stableLe : s.n_moved = 0 → s.grow.b_len ≤ s.main.b_len
  migrLen : 0 < s.n_moved → s.grow.b_len = 2 * s.main.b_len
  cursorLe : s.n_moved ≤ s.main.b_len
  drained : ∀ i, i < s.n_moved → s.main.buckets[i]? = some []

end HMap

/-! ## Generic list helpers -/

theorem getD_set_self {α : Type} {l : List α} {i : Nat} {a d : α}
    (h : i < l.length) : (l.set i a).getD i d = a := by
  simp [List.getD_eq_getElem?_getD, List.getElem?_set_self h]

theorem getD_set_ne {α : Type} {l : List α} {i j : Nat} {a d : α}
    (h : i ≠ j) : (l.set i a).getD j d = l.getD j d := by
  simp [List.getD_eq_getElem?_getD, List.getElem?_set_ne h]

theorem getD_eq_of_lt {α : Type} {l : List α} {i : Nat} {d : α}
    (h : i < l.length) : l[i]? = some (l.getD i d) := by
  have hg : l[i]? = some l[i] := List.getElem?_eq_some.2 ⟨h, rfl⟩
  rw [List.getD_eq_getElem?_getD, hg]
  rfl

theorem getD_mem {α : Type} {l : List α} {i : Nat} {d : α}
    (h : i < l.length) : l.getD i d ∈ l := by
  have := getD_eq_of_lt (d := d) h
  rw [List.getElem?_eq_some] at this
  exact this.2 ▸ List.getElem_mem this.1

theorem sum_set_nat (l : List Nat) (i x : Nat) (h : i < l.length) :
    (l.set i x).sum + l.getD i 0 = l.sum + x := by
  induction l generalizing i with
  | nil => simp at h
  | cons a t ih =>
    cases i with
    | zero => simp [List.getD]; omega
    | succ n =>
      simp only [List.set, List.sum_cons, List.getD_cons_succ]
      have := ih n (by simpa using h)
      omega

theorem getD_le_sum (l : List Nat) (i : Nat) :
    l.getD i 0 ≤ l.sum := by
  by_cases h : i < l.length
  · exact List.single_le_sum (fun x _ => Nat.zero_le x) _ (getD_mem h)
  · simp [List.getD_eq_getElem?_getD, List.getElem?_eq_none (Nat.le_of_not_lt h)]

namespace BucketList

/-! ## Chain-scan lemmas (`listFind` / `listUpdate`) -/

theorem listFind_append (k : K) (c₁ c₂ : List (K × V)) :
    listFind k (c₁ ++ c₂) = (listFind k c₁).or (listFind k c₂) := by
  induction c₁ with
  | nil => simp [listFind]
  | cons kv rest ih =>
    obtain ⟨ik, iv⟩ := kv
    by_cases h : k = ik <;> simp [listFind, h, ih]

theorem listFind_eq_none {k : K} {c : List (K × V)} :
    listFind k c = none ↔ k ∉ c.map Prod.fst := by
  induction c with
  | nil => simp [listFind]
  | cons kv rest ih =>
    obtain ⟨ik, iv⟩ := kv
    by_cases h : k = ik <;> simp [listFind, h, ih]

theorem listFind_mem {k : K} {v : V} {c : List (K × V)}
    (h : listFind k c = some v) : (k, v) ∈ c := by
  induction c with
  | nil => simp [listFind] at h
  | cons kv rest ih =>
    obtain ⟨ik, iv⟩ := kv
    by_cases hk : k = ik
    · simp only [listFind, if_pos hk, Option.some.injEq] at h
      subst hk; subst h; exact List.mem_cons_self _ _
    · simp only [listFind, if_neg hk] at h
      exact List.mem_cons_of_mem _ (ih h)

theorem listFind_of_mem_nodup {k : K} {v : V} {c : List (K × V)}
    (hnd : (c.map Prod.fst).Nodup) (hm : (k, v) ∈ c) :
    listFind k c = some v := by
  induction c with
  | nil => simp at hm
  | cons kv rest ih =>
    obtain ⟨ik, iv⟩ := kv
    simp only [List.map_cons, List.nodup_cons] at hnd
    rcases List.mem_cons.1 hm with h | h
    · obtain ⟨rfl, rfl⟩ := Prod.mk.injEq .. ▸ h
      simp [listFind]
    · have hne : k ≠ ik := by
        rintro rfl
        exact hnd.1 (List.mem_map.2 ⟨(k, v), h, rfl⟩)
      simp [listFind, hne, ih hnd.2 h]

theorem listUpdate_eq_none {k : K} {v : V} {c : List (K × V)} :
    listUpdate k v c = none ↔ listFind k c = none := by
  induction c with
  | nil => simp [listUpdate, listFind]
  | cons kv rest ih =>
    obtain ⟨ik, iv⟩ := kv
    by_cases h : k = ik <;>
      simp [listUpdate, listFind, h, Option.map_eq_none', ih]

theorem listUpdate_some {k : K} {v : V} {c c' : List (K × V)}
    (h : listUpdate k v c = some c') :
    c'.map Prod.fst = c.map Prod.fst ∧ c'.length = c.length ∧
      listFind k c' = some v ∧
      ∀ k', k' ≠ k → listFind k' c' = listFind k' c := by
  induction c generalizing c' with
  | nil => simp [listUpdate] at h
  | cons kv rest ih =>
    obtain ⟨ik, iv⟩ := kv
    by_cases hk : k = ik
    · simp only [listUpdate, if_pos hk, Option.some.injEq] at h
      subst h
      refine ⟨by simp, by simp, by simp [listFind, hk], ?_⟩
      intro k' hne
      have : k' ≠ ik := hk ▸ hne
      simp [listFind, this]
    · simp only [listUpdate, if_neg hk, Option.map_eq_some'] at h
      obtain ⟨r', hr', rfl⟩ := h
      obtain ⟨h1, h2, h3, h4⟩ := ih hr'
      refine ⟨by simp [h1], by simp [h2], by simp [listFind, hk, h3], ?_⟩
      intro k' hne
      by_cases hki : k' = ik <;> simp [listFind, hki, h4 k' hne]

/-! ## Bank-level lemmas -/

theorem hIdx_lt (hash : HashFn K) {bl : BucketList K V} (h : bl.buckets ≠ [])
    (k : K) : hIdx hash bl k < bl.buckets.length :=
  Nat.mod_lt _ (List.length_pos.2 h)

theorem hIdx_congr (hash : HashFn K) {bl bl' : BucketList K V}
    (hs : bl'.seed = bl.seed)
    (hl : bl'.buckets.length = bl.buckets.length) (k : K) :
    hIdx hash bl' k = hIdx hash bl k := by
  simp [hIdx, hs, hl]

theorem hasKey_iff {bl : BucketList K V} {k : K} :
    bl.hasKey k ↔ ∃ c ∈ bl.buckets, ∃ v, (k, v) ∈ c := by
  constructor
  · intro h
    obtain ⟨kv, hkv, rfl⟩ := List.mem_map.1 h
    obtain ⟨c, hc, hkvc⟩ := List.mem_flatten.1 hkv
    exact ⟨c, hc, kv.2, hkvc⟩
  · rintro ⟨c, hc, v, hvc⟩
    exact List.mem_map.2 ⟨(k, v), List.mem_flatten.2 ⟨c, hc, hvc⟩, rfl⟩

theorem hasKey_of_get {hash : HashFn K} {bl : BucketList K V} {k : K} {v : V}
    (h : bl.get hash k = some v) : bl.hasKey k := by
  rcases eq_or_ne bl.buckets [] with he | he
  · simp [get, he, listFind] at h
  · exact List.mem_map.2
      ⟨(k, v),
       List.mem_flatten.2 ⟨_, getD_mem (hIdx_lt hash he k), listFind_mem h⟩,
       rfl⟩

theorem get_eq_some_iff {hash : HashFn K} {bl : BucketList K V}
    (wf : WF hash bl) {k : K} {v : V} :
    bl.get hash k = some v ↔ (k, v) ∈ bl.entries := by
  constructor
  · intro h
    exact List.mem_flatten.2
      ⟨_, getD_mem (hIdx_lt hash wf.ne k), listFind_mem h⟩
  · intro h
    obtain ⟨c, hc, hm⟩ := List.mem_flatten.1 h
    obtain ⟨i, hi⟩ := List.mem_iff_getElem?.1 hc
    have hplace := wf.placed i c hi (k, v) hm
    have hieq : i = hIdx hash bl k := by rw [hIdx, hplace]
    rw [hieq] at hi
    have hlt : hIdx hash bl k < bl.buckets.length :=
      (List.getElem?_eq_some.1 hi).1
    have hchain : bl.buckets.getD (hIdx hash bl k) [] = c := by
      have := getD_eq_of_lt (d := ([] : List (K × V))) hlt
      rw [hi] at this
      exact (Option.some.injEq .. ▸ this).symm
    rw [get, hchain]
    exact listFind_of_mem_nodup (wf.nodup c hc) hm

theorem get_eq_none_iff {hash : HashFn K} {bl : BucketList K V}
    (wf : WF hash bl) {k : K} :
    bl.get hash k = none ↔ ¬ bl.hasKey k := by
  constructor
  · intro h hk
    obtain ⟨c, hc, v, hvc⟩ := hasKey_iff.1 hk
    have : bl.get hash k = some v :=
      (get_eq_some_iff wf).2 (List.mem_flatten.2 ⟨c, hc, hvc⟩)
    rw [h] at this
    cases this
  · intro h
    cases hg : bl.get hash k with
    | none => rfl
    | some v => exact absurd (hasKey_of_get hg) h

theorem chains_nil_of_len_zero {hash : HashFn K} {bl : BucketList K V}
    (wf : WF hash bl) (h : bl.len = 0) : ∀ c ∈ bl.buckets, c = [] := by
  intro c hc
  have hsum : (bl.buckets.map List.length).sum = 0 := by
    rw [← wf.lenEq]; exact h
  have := List.sum_eq_zero_iff.1 hsum c.length (List.mem_map.2 ⟨c, hc, rfl⟩)
  exact List.eq_nil_of_length_eq_zero this

theorem get_of_len_zero {hash : HashFn K} {bl : BucketList K V}
    (wf : WF hash bl) (h : bl.len = 0) (k : K) : bl.get hash k = none := by
  rw [get]
  by_cases hlt : hIdx hash bl k < bl.buckets.length
  · rw [chains_nil_of_len_zero wf h _ (getD_mem hlt)]
    rfl
  · rw [List.getD_eq_getElem?_getD, List.getElem?_eq_none (Nat.le_of_not_lt hlt)]
    rfl

theorem not_hasKey_of_len_zero {hash : HashFn K} {bl : BucketList K V}
    (wf : WF hash bl) (h : bl.len = 0) (k : K) : ¬ bl.hasKey k :=
  (get_eq_none_iff wf).1 (get_of_len_zero wf h k)

theorem getD_map_length (l : List (List (K × V))) (i : Nat) :
    (l.map List.length).getD i 0 = (l.getD i []).length := by
  rw [List.getD_eq_getElem?_getD, List.getD_eq_getElem?_getD,
    List.getElem?_map]
  cases l[i]? <;> rfl

theorem sum_lengths_eq_of_keys {l₁ l₂ : List (List (K × V))}
    (hk : ∀ i : Nat, (l₁[i]?).map (List.map Prod.fst)
      = (l₂[i]?).map (List.map Prod.fst))
    (hl : l₁.length = l₂.length) :
    (l₁.map List.length).sum = (l₂.map List.length).sum := by
  have hmap : l₁.map List.length = l₂.map List.length := by
    apply List.ext_getElem?
    intro i
    have hki := hk i
    rw [List.getElem?_map, List.getElem?_map]
    cases h₁ : l₁[i]? with
    | none =>
      have h₂ : l₂[i]? = none := by
        rw [List.getElem?_eq_none]
        rw [← hl]
        exact List.getElem?_eq_none_iff.mp h₁
      rw [h₂]
    | some c₁ =>
      rw [h₁] at hki
      cases h₂ : l₂[i]? with
      | none =>
        rw [h₂] at hki
        simp at hki
      | some c₂ =>
        rw [h₂] at hki
        simp only [Option.map_some', Option.some.injEq] at hki
        have hlen : c₁.length = c₂.length := by
          have := congrArg List.length hki
          simpa using this
        simp [hlen]
  rw [hmap]

/-! ## `updateVal` (the effect of `get_mut` plus a write-through) -/

theorem updateVal_eq_none {hash : HashFn K} {bl : BucketList K V}
    {k : K} {v : V} :
    bl.updateVal hash k v = none ↔ bl.get hash k = none := by
  simp [updateVal, get, Option.map_eq_none', listUpdate_eq_none]

theorem updateVal_some_spec {hash : HashFn K} {bl bl' : BucketList K V}
    {k : K} {v : V} (h : bl.updateVal hash k v = some bl') :
    bl'.seed = bl.seed ∧ bl'.len = bl.len ∧
      bl'.buckets.length = bl.buckets.length ∧
      (∀ i : Nat, (bl'.buckets[i]?).map (List.map Prod.fst)
          = (bl.buckets[i]?).map (List.map Prod.fst)) ∧
      bl'.get hash k = some v ∧
      (∀ k', k' ≠ k → bl'.get hash k' = bl.get hash k') := by
  rw [updateVal, Option.map_eq_some'] at h
  obtain ⟨c', hc', rfl⟩ := h
  obtain ⟨hkeys, hlen, hfind, hfind'⟩ := listUpdate_some hc'
  have hnn : bl.buckets.getD (hIdx hash bl k) [] ≠ [] := by
    intro hnil
    rw [hnil] at hc'
    simp [listUpdate] at hc'
  have hrange : hIdx hash bl k < bl.buckets.length := by
    by_contra hge
    rw [List.getD_eq_getElem?_getD,
      List.getElem?_eq_none (Nat.le_of_not_lt hge)] at hnn
    exact hnn rfl
  have hblen : (bl.buckets.set (hIdx hash bl k) c').length
      = bl.buckets.length := List.length_set ..
  have hidx : ∀ k'',
      hIdx hash { bl with buckets := bl.buckets.set (hIdx hash bl k) c' } k''
        = hIdx hash bl k'' := by
    intro k''
    simp [hIdx]
  refine ⟨rfl, rfl, hblen, ?_, ?_, ?_⟩
  · intro i
    by_cases hi : hIdx hash bl k = i
    · subst hi
      rw [List.getElem?_set_self hrange,
        getD_eq_of_lt (d := ([] : List (K × V))) hrange]
      simp [hkeys]
    · rw [List.getElem?_set_ne hi]
  · show BucketList.get hash _ k = some v
    rw [get, hidx k]
    show listFind k ((bl.buckets.set (hIdx hash bl k) c').getD
      (hIdx hash bl k) []) = some v
    rw [getD_set_self hrange]
    exact hfind
  · intro k' hne
    show BucketList.get hash _ k' = bl.get hash k'
    rw [get, get, hidx k']
    by_cases hk' : hIdx hash bl k' = hIdx hash bl k
    · rw [hk', getD_set_self hrange]
      exact hfind' k' hne
    · rw [getD_set_ne (fun hh => hk' hh.symm)]

theorem updateVal_some_wf {hash : HashFn K} {bl bl' : BucketList K V}
    {k : K} {v : V} (wf : WF hash bl)
    (h : bl.updateVal hash k v = some bl') : WF hash bl' := by
  obtain ⟨hseed, hlen, hblen, hkeys, _, _⟩ := updateVal_some_spec h
  constructor
  · rw [← List.length_pos, hblen, List.length_pos]
    exact wf.ne
  · rw [hlen, wf.lenEq]
    exact (sum_lengths_eq_of_keys hkeys hblen).symm
  · intro i c hc kv hkv
    have := hkeys i
    rw [hc] at this
    cases h₂ : bl.buckets[i]? with
    | none => rw [h₂] at this; simp at this
    | some c₂ =>
      rw [h₂] at this
      simp only [Option.map_some', Option.some.injEq] at this
      have hmemk : kv.1 ∈ c₂.map Prod.fst := by
        rw [← this]
        exact List.mem_map.2 ⟨kv, hkv, rfl⟩
      obtain ⟨kv₂, hkv₂, hfst⟩ := List.mem_map.1 hmemk
      rw [hblen, hseed, ← hfst]
      exact wf.placed i c₂ h₂ kv₂ hkv₂
  · intro c hc
    obtain ⟨i, hi⟩ := List.mem_iff_getElem?.1 hc
    have := hkeys i
    rw [hi] at this
    cases h₂ : bl.buckets[i]? with
    | none => rw [h₂] at this; simp at this
    | some c₂ =>
      rw [h₂] at this
      simp only [Option.map_some', Option.some.injEq] at this
      rw [this]
      exact wf.nodup c₂ (List.mem_iff_getElem?.2 ⟨i, h₂⟩)

/-! ## `push` -/

theorem push_seed {hash : HashFn K} (bl : BucketList K V) (k : K) (v : V) :
    (bl.push hash k v).1.seed = bl.seed := rfl

theorem push_len {hash : HashFn K} (bl : BucketList K V) (k : K) (v : V) :
    (bl.push hash k v).1.len = bl.len + 1 := rfl

theorem push_buckets {hash : HashFn K} (bl : BucketList K V) (k : K) (v : V) :
    (bl.push hash k v).1.buckets
      = bl.buckets.set (hIdx hash bl k)
          (bl.buckets.getD (hIdx hash bl k) [] ++ [(k, v)]) := rfl

theorem push_b_len {hash : HashFn K} (bl : BucketList K V) (k : K) (v : V) :
    (bl.push hash k v).1.b_len = bl.b_len := by
  simp [b_len, push_buckets]

theorem push_snd {hash : HashFn K} (bl : BucketList K V) (k : K) (v : V) :
    (bl.push hash k v).2
      = (bl.buckets.getD (hIdx hash bl k) []).length + 1 := by
  simp [push]

theorem push_hIdx {hash : HashFn K} (bl : BucketList K V) (k : K) (v : V)
    (k'' : K) : hIdx hash (bl.push hash k v).1 k'' = hIdx hash bl k'' := by
  simp [push, hIdx]

theorem push_get_self {hash : HashFn K} {bl : BucketList K V} {k : K} (v : V)
    (hne : bl.buckets ≠ []) (h : bl.get hash k = none) :
    (bl.push hash k v).1.get hash k = some v := by
  have hrange := hIdx_lt hash hne k
  rw [get] at h
  rw [get, push_hIdx, push_buckets, getD_set_self hrange, listFind_append, h]
  simp [listFind]

theorem push_get_other {hash : HashFn K} (bl : BucketList K V) (k : K) (v : V)
    {k' : K} (hne : k' ≠ k) :
    (bl.push hash k v).1.get hash k' = bl.get hash k' := by
  rw [get, get, push_hIdx, push_buckets]
  by_cases hcase : hIdx hash bl k' = hIdx hash bl k
  · rw [hcase]
    by_cases hrange : hIdx hash bl k < bl.buckets.length
    · rw [getD_set_self hrange, listFind_append]
      have hnil : listFind k' [(k, v)] = none := by simp [listFind, hne]
      rw [hnil, Option.or_none]
    · have hge := Nat.le_of_not_lt hrange
      rw [List.getD_eq_getElem?_getD, List.getD_eq_getElem?_getD,
        List.getElem?_eq_none (by simpa using hge), List.getElem?_eq_none hge]
  · rw [getD_set_ne (fun hh => hcase hh.symm)]

theorem push_wf {hash : HashFn K} {bl : BucketList K V} {k : K} {v : V}
    (wf : WF hash bl) (h : bl.get hash k = none) :
    WF hash (bl.push hash k v).1 := by
  have hrange := hIdx_lt hash wf.ne k
  have hkchain : k ∉ (bl.buckets.getD (hIdx hash bl k) []).map Prod.fst := by
    rw [get] at h
    exact listFind_eq_none.1 h
  constructor
  · rw [push_buckets, ← List.length_pos, List.length_set, List.length_pos]
    exact wf.ne
  · rw [push_len, push_buckets, wf.lenEq, List.map_set]
    have hs := sum_set_nat (bl.buckets.map List.length) (hIdx hash bl k)
      ((bl.buckets.getD (hIdx hash bl k) [] ++ [(k, v)]).length)
      (by simpa using hrange)
    rw [getD_map_length] at hs
    have hlen2 : (bl.buckets.getD (hIdx hash bl k) [] ++ [(k, v)]).length
        = (bl.buckets.getD (hIdx hash bl k) []).length + 1 := by simp
    rw [hlen2] at hs ⊢
    omega
  · intro i c hc kv hkv
    rw [push_buckets] at hc
    have hblen2 : (bl.push hash k v).1.buckets.length = bl.buckets.length := by
      rw [push_buckets, List.length_set]
    rw [show (bl.push hash k v).1.seed = bl.seed from rfl, hblen2]
    by_cases hcase : hIdx hash bl k = i
    · subst hcase
      rw [List.getElem?_set_self hrange, Option.some.injEq] at hc
      subst hc
      rcases List.mem_append.1 hkv with hmem | hmem
      · exact wf.placed _ _ (getD_eq_of_lt hrange) kv hmem
      · have : kv = (k, v) := by simpa using hmem
        subst this
        rfl
    · rw [List.getElem?_set_ne hcase] at hc
      exact wf.placed i c hc kv hkv
  · intro c hc
    rw [push_buckets] at hc
    rcases List.mem_or_eq_of_mem_set hc with hmem | rfl
    · exact wf.nodup c hmem
    · rw [List.map_append, List.nodup_append]
      refine ⟨wf.nodup _ (getD_mem hrange), by simp, ?_⟩
      intro a ha hb
      simp only [List.map_cons, List.map_nil, List.mem_singleton] at hb
      subst hb
      exact hkchain ha

theorem push_hasKey_of {hash : HashFn K} {bl : BucketList K V} {k : K}
    {v : V} {k' : K} (h : (bl.push hash k v).1.hasKey k') :
    bl.hasKey k' ∨ k' = k := by
  obtain ⟨c, hc, v', hv'⟩ := hasKey_iff.1 h
  rw [push_buckets] at hc
  rcases List.mem_or_eq_of_mem_set hc with hmem | rfl
  · exact Or.inl (hasKey_iff.2 ⟨c, hmem, v', hv'⟩)
  · rcases List.mem_append.1 hv' with hmem | hmem
    · by_cases hrange : hIdx hash bl k < bl.buckets.length
      · exact Or.inl (hasKey_iff.2 ⟨_, getD_mem hrange, v', hmem⟩)
      · rw [List.getD_eq_getElem?_getD,
          List.getElem?_eq_none (Nat.le_of_not_lt hrange)] at hmem
        simp at hmem
    · have : k' = k ∧ v' = v := by simpa using hmem
      exact Or.inr this.1

/-! ## `bucket` (the spec's `take_bucket`) -/

theorem bucket_out_of_range {bl : BucketList K V} {n : Nat}
    (h : bl.buckets.length ≤ n) : bl.bucket n = (none, bl) := by
  simp [bucket, h]

theorem bucket_fst {bl : BucketList K V} {n : Nat}
    (h : n < bl.buckets.length) :
    (bl.bucket n).1 = some (bl.buckets.getD n []) := by
  simp [bucket, Nat.not_le.2 h]

theorem bucket_snd_buckets {bl : BucketList K V} {n : Nat}
    (h : n < bl.buckets.length) :
    (bl.bucket n).2.buckets = bl.buckets.set n [] := by
  simp [bucket, Nat.not_le.2 h]

theorem bucket_snd_len {bl : BucketList K V} {n : Nat}
    (h : n < bl.buckets.length) :
    (bl.bucket n).2.len = bl.len - (bl.buckets.getD n []).length := by
  simp [bucket, Nat.not_le.2 h]

theorem bucket_snd_seed (bl : BucketList K V) (n : Nat) :
    (bl.bucket n).2.seed = bl.seed := by
  by_cases h : n ≥ bl.buckets.length <;> simp [bucket, h]

theorem bucket_snd_b_len (bl : BucketList K V) (n : Nat) :
    (bl.bucket n).2.b_len = bl.b_len := by
  by_cases h : n ≥ bl.buckets.length <;> simp [bucket, b_len, h]

theorem bucket_len_add {hash : HashFn K} {bl : BucketList K V} {n : Nat}
    (wf : WF hash bl) (h : n < bl.buckets.length) :
    (bl.bucket n).2.len + (bl.buckets.getD n []).length = bl.len := by
  rw [bucket_snd_len h]
  have hle : (bl.buckets.getD n []).length ≤ bl.len := by
    rw [wf.lenEq, ← getD_map_length]
    exact getD_le_sum _ n
  omega

theorem bucket_wf {hash : HashFn K} {bl : BucketList K V} {n : Nat}
    (wf : WF hash bl) : WF hash (bl.bucket n).2 := by
  by_cases h : n < bl.buckets.length
  · constructor
    · rw [bucket_snd_buckets h, ← List.length_pos, List.length_set,
        List.length_pos]
      exact wf.ne
    · rw [bucket_snd_len h, bucket_snd_buckets h, List.map_set]
      have hs := sum_set_nat (bl.buckets.map List.length) n
        (List.length ([] : List (K × V))) (by simpa using h)
      rw [getD_map_length] at hs
      have := wf.lenEq
      simp only [List.length_nil] at hs ⊢
      omega
    · intro i c hc kv hkv
      rw [bucket_snd_buckets h] at hc
      rw [show (bl.bucket n).2.seed = bl.seed from bucket_snd_seed bl n,
        show (bl.bucket n).2.buckets.length = bl.buckets.length by
          rw [bucket_snd_buckets h, List.length_set]]
      by_cases hcase : n = i
      · subst hcase
        rw [List.getElem?_set_self h, Option.some.injEq] at hc
        subst hc
        simp at hkv
      · rw [List.getElem?_set_ne hcase] at hc
        exact wf.placed i c hc kv hkv
    · intro c hc
      rw [bucket_snd_buckets h] at hc
      rcases List.mem_or_eq_of_mem_set hc with hmem | rfl
      · exact wf.nodup c hmem
      · simp
  · rw [bucket_out_of_range (Nat.le_of_not_lt h)]
    exact wf

theorem bucket_get {hash : HashFn K} {bl : BucketList K V} {n : Nat}
    (h : n < bl.buckets.length) (k : K) :
    (bl.bucket n).2.get hash k
      = if hIdx hash bl k = n then none else bl.get hash k := by
  have hidx : hIdx hash (bl.bucket n).2 k = hIdx hash bl k := by
    rw [hIdx, hIdx, bucket_snd_seed, bucket_snd_buckets h, List.length_set]
  rw [get, hidx, bucket_snd_buckets h]
  by_cases hcase : hIdx hash bl k = n
  · rw [if_pos hcase, hcase, getD_set_self h]
    rfl
  · rw [if_neg hcase, getD_set_ne (fun hh => hcase hh.symm)]
    rfl

theorem get_eq_listFind_taken {hash : HashFn K} {bl : BucketList K V}
    {n : Nat} {k : K} (hk : hIdx hash bl k = n) :
    bl.get hash k = listFind k (bl.buckets.getD n []) := by
  rw [get, hk]

theorem bucket_hasKey_of {bl : BucketList K V} {n : Nat} {k' : K}
    (h : (bl.bucket n).2.hasKey k') : bl.hasKey k' := by
  by_cases hr : n < bl.buckets.length
  · obtain ⟨c, hc, v', hv'⟩ := hasKey_iff.1 h
    rw [bucket_snd_buckets hr] at hc
    rcases List.mem_or_eq_of_mem_set hc with hmem | rfl
    · exact hasKey_iff.2 ⟨c, hmem, v', hv'⟩
    · simp at hv'
  · rw [bucket_out_of_range (Nat.le_of_not_lt hr)] at h
    exact h

theorem taken_hasKey {bl : BucketList K V} {n : Nat}
    (h : n < bl.buckets.length) :
    ∀ kv ∈ bl.buckets.getD n [], bl.hasKey kv.1 := by
  intro kv hkv
  exact hasKey_iff.2 ⟨_, getD_mem h, kv.2, hkv⟩

theorem bucket_not_hasKey_taken {hash : HashFn K} {bl : BucketList K V}
    {n : Nat} (wf : WF hash bl) (h : n < bl.buckets.length) {k' : K}
    (hk : k' ∈ (bl.buckets.getD n []).map Prod.fst) :
    ¬ (bl.bucket n).2.hasKey k' := by
  intro hkM
  obtain ⟨kv₂, hkv₂, hfst⟩ := List.mem_map.1 hk
  have hplace : hash bl.seed k' % bl.buckets.length = n := by
    rw [← hfst]
    exact wf.placed n _ (getD_eq_of_lt h) kv₂ hkv₂
  obtain ⟨c, hc, v', hv'⟩ := hasKey_iff.1 hkM
  obtain ⟨i, hi⟩ := List.mem_iff_getElem?.1 hc
  have hplace₂ := (bucket_wf wf).placed i c hi (k', v') hv'
  rw [bucket_snd_seed] at hplace₂
  have hblen : (bl.bucket n).2.buckets.length = bl.buckets.length := by
    rw [bucket_snd_buckets h, List.length_set]
  rw [hblen] at hplace₂
  have hin : i = n := by rw [← hplace, hplace₂]
  subst hin
  rw [bucket_snd_buckets h, List.getElem?_set_self h,
    Option.some.injEq] at hi
  rw [← hi] at hv'
  simp at hv'

/-! ## `set_buckets` (the spec's `ensure_capacity`) -/

theorem set_buckets_seed (bl : BucketList K V) (n : Nat) :
    (bl.set_buckets n).seed = bl.seed := rfl

theorem set_buckets_len (bl : BucketList K V) (n : Nat) :
    (bl.set_buckets n).len = bl.len := rfl

theorem set_buckets_b_len (bl : BucketList K V) (n : Nat) :
    (bl.set_buckets n).b_len = max bl.b_len n := by
  simp only [set_buckets, b_len, List.length_append, List.length_replicate]
  omega

theorem set_buckets_chains_nil {hash : HashFn K} {bl : BucketList K V}
    (wf : WF hash bl) (h0 : bl.len = 0) (n : Nat) :
    ∀ c ∈ (bl.set_buckets n).buckets, c = [] := by
  intro c hc
  have hc' : c ∈ bl.buckets ++ List.replicate (n - bl.buckets.length) [] := hc
  rcases List.mem_append.1 hc' with hm | hm
  · exact chains_nil_of_len_zero wf h0 c hm
  · exact List.eq_of_mem_replicate hm

theorem wf_of_all_nil {hash : HashFn K} {bl : BucketList K V}
    (hne : bl.buckets ≠ []) (hnil : ∀ c ∈ bl.buckets, c = [])
    (hlen : bl.len = 0) : WF hash bl := by
  constructor
  · exact hne
  · rw [hlen]
    symm
    apply List.sum_eq_zero
    intro x hx
    obtain ⟨c, hc, rfl⟩ := List.mem_map.1 hx
    rw [hnil c hc]
    rfl
  · intro i c hc kv hkv
    have hmem : c ∈ bl.buckets := List.mem_iff_getElem?.2 ⟨i, hc⟩
    rw [hnil c hmem] at hkv
    simp at hkv
  · intro c hc
    rw [hnil c hc]
    simp

theorem set_buckets_wf {hash : HashFn K} {bl : BucketList K V}
    (wf : WF hash bl) (h0 : bl.len = 0) (n : Nat) :
    WF hash (bl.set_buckets n) := by
  apply wf_of_all_nil
  · show bl.buckets ++ List.replicate (n - bl.buckets.length) [] ≠ []
    intro he
    exact wf.ne (List.append_eq_nil.1 he).1
  · exact set_buckets_chains_nil wf h0 n
  · exact h0

theorem set_buckets_get {hash : HashFn K} {bl : BucketList K V}
    (wf : WF hash bl) (h0 : bl.len = 0) (n : Nat) (k : K) :
    (bl.set_buckets n).get hash k = none :=
  get_of_len_zero (set_buckets_wf wf h0 n) h0 k

/-! ## Per-bucket key preservation (used for `updateVal`) -/

theorem hasKey_of_keys_le {bl bl' : BucketList K V}
    (hkeys : ∀ i : Nat, (bl'.buckets[i]?).map (List.map Prod.fst)
      = (bl.buckets[i]?).map (List.map Prod.fst)) {k : K}
    (h : bl'.hasKey k) : bl.hasKey k := by
  obtain ⟨c, hc, v, hv⟩ := hasKey_iff.1 h
  obtain ⟨i, hi⟩ := List.mem_iff_getElem?.1 hc
  have hk := hkeys i
  rw [hi] at hk
  cases h₂ : bl.buckets[i]? with
  | none =>
    rw [h₂] at hk
    simp at hk
  | some c₂ =>
    rw [h₂] at hk
    simp only [Option.map_some', Option.some.injEq] at hk
    have : k ∈ c₂.map Prod.fst := by
      rw [← hk]
      exact List.mem_map.2 ⟨(k, v), hv, rfl⟩
    obtain ⟨kv₂, hkv₂, hfst⟩ := List.mem_map.1 this
    exact hasKey_iff.2 ⟨c₂, List.mem_iff_getElem?.2 ⟨i, h₂⟩, kv₂.2,
      by rw [← hfst]; exact hkv₂⟩

theorem keys_nil_preserved {bl bl' : BucketList K V}
    (hkeys : ∀ i : Nat, (bl'.buckets[i]?).map (List.map Prod.fst)
      = (bl.buckets[i]?).map (List.map Prod.fst)) {i : Nat}
    (hi : bl.buckets[i]? = some []) : bl'.buckets[i]? = some [] := by
  have hk := hkeys i
  rw [hi] at hk
  cases h₂ : bl'.buckets[i]? with
  | none =>
    rw [h₂] at hk
    simp at hk
  | some c =>
    rw [h₂] at hk
    simp only [Option.map_some', List.map_nil, Option.some.injEq] at hk
    rw [List.map_eq_nil_iff] at hk
    rw [hk]

theorem bucket_eq_of_lt {bl : BucketList K V} {n : Nat}
    (h : n < bl.buckets.length) :
    bl.bucket n = (some (bl.buckets.getD n []),
      { bl with buckets := bl.buckets.set n [],
                len := bl.len - (bl.buckets.getD n []).length }) := by
  simp [bucket, Nat.not_le.2 h]

/-! ## Preservation of the bare representation invariant (`RepOk`) -/

theorem WF.toRepOk {hash : HashFn K} {bl : BucketList K V}
    (wf : WF hash bl) : bl.RepOk := ⟨wf.ne, wf.lenEq⟩

theorem new_repOk (seed : Nat) : (new seed : BucketList K V).RepOk := by
  constructor <;> simp [new]

theorem push_repOk {hash : HashFn K} {bl : BucketList K V} (rep : bl.RepOk)
    (k : K) (v : V) : (bl.push hash k v).1.RepOk := by
  have hrange := hIdx_lt hash rep.ne k
  constructor
  · rw [push_buckets, ← List.length_pos, List.length_set, List.length_pos]
    exact rep.ne
  · rw [push_len, push_buckets, rep.lenEq, List.map_set]
    have hs := sum_set_nat (bl.buckets.map List.length) (hIdx hash bl k)
      ((bl.buckets.getD (hIdx hash bl k) [] ++ [(k, v)]).length)
      (by simpa using hrange)
    rw [getD_map_length] at hs
    have hlen2 : (bl.buckets.getD (hIdx hash bl k) [] ++ [(k, v)]).length
        = (bl.buckets.getD (hIdx hash bl k) []).length + 1 := by simp
    rw [hlen2] at hs ⊢
    omega

theorem updateVal_repOk {hash : HashFn K} {bl bl' : BucketList K V}
    {k : K} {v : V} (h : bl.updateVal hash k v = some bl')
    (rep : bl.RepOk) : bl'.RepOk := by
  obtain ⟨_, hlen, hblen, hkeys, _, _⟩ := updateVal_some_spec h
  constructor
  · rw [← List.length_pos, hblen, List.length_pos]
    exact rep.ne
  · rw [hlen, rep.lenEq]
    exact (sum_lengths_eq_of_keys hkeys hblen).symm

theorem bucket_repOk {bl : BucketList K V} {n : Nat} (rep : bl.RepOk) :
    (bl.bucket n).2.RepOk := by
  by_cases h : n < bl.buckets.length
  · constructor
    · rw [bucket_snd_buckets h, ← List.length_pos, List.length_set,
        List.length_pos]
      exact rep.ne
    · rw [bucket_snd_len h, bucket_snd_buckets h, List.map_set]
      have hs := sum_set_nat (bl.buckets.map List.length) n
        (List.length ([] : List (K × V))) (by simpa using h)
      rw [getD_map_length] at hs
      have := rep.lenEq
      simp only [List.length_nil] at hs ⊢
      omega
  · rw [bucket_out_of_range (Nat.le_of_not_lt h)]
    exact rep

theorem set_buckets_repOk {bl : BucketList K V} (rep : bl.RepOk) (n : Nat) :
    (bl.set_buckets n).RepOk := by
  constructor
  · show bl.buckets ++ List.replicate (n - bl.buckets.length) [] ≠ []
    intro he
    exact rep.ne (List.append_eq_nil.1 he).1
  · show bl.len = ((bl.buckets
      ++ List.replicate (n - bl.buckets.length)
        ([] : List (K × V))).map List.length).sum
    rw [List.map_append, List.sum_append, rep.lenEq]
    have hr : (List.replicate (n - bl.buckets.length)
        ([] : List (K × V))).map List.length
        = List.replicate (n - bl.buckets.length) 0 := by
      simp
    rw [hr]
    simp

theorem new_bank_wf (hash : HashFn K) (seed : Nat) :
    (new seed : BucketList K V).WF hash := by
  constructor
  · simp [new]
  · simp [new]
  · intro i c hc kv hkv
    match i with
    | 0 =>
      simp only [new, List.getElem?_cons_zero, Option.some.injEq] at hc
      rw [← hc] at hkv
      simp at hkv
    | i + 1 => simp [new] at hc
  · intro c hc
    simp only [new, List.mem_singleton] at hc
    rw [hc]
    simp

theorem new_get (hash : HashFn K) (seed : Nat) (k : K) :
    (new seed : BucketList K V).get hash k = none := by
  rw [get]
  have hidx : hIdx hash (new seed : BucketList K V) k = 0 := by
    simp [hIdx, new, Nat.mod_one]
  rw [hidx]
  rfl

end BucketList

namespace HMap

open BucketList

/-! ## The replay loop of `move_bucket` -/

theorem replay_spec {hash : HashFn K} {b : List (K × V)} :
    ∀ {g : BucketList K V}, g.WF hash →
    (b.map Prod.fst).Nodup →
    (∀ kv ∈ b, g.get hash kv.1 = none) →
    (replay hash g b).WF hash ∧
      (replay hash g b).seed = g.seed ∧
      (replay hash g b).b_len = g.b_len ∧
      (replay hash g b).len = g.len + b.length ∧
      (∀ k : K, k ∉ b.map Prod.fst →
        (replay hash g b).get hash k = g.get hash k) ∧
      (∀ (k : K) (v : V), (k, v) ∈ b →
        (replay hash g b).get hash k = some v) ∧
      (∀ k' : K, (replay hash g b).hasKey k' →
        g.hasKey k' ∨ k' ∈ b.map Prod.fst) := by
  induction b with
  | nil =>
    intro g wf hnd hfresh
    refine ⟨wf, rfl, rfl, by simp [replay], ?_, ?_, ?_⟩
    · intro k _
      rfl
    · intro k v hm
      simp at hm
    · intro k' h
      exact Or.inl h
  | cons kv rest ih =>
    intro g wf hnd hfresh
    obtain ⟨k₀, v₀⟩ := kv
    have hrepl : replay hash g ((k₀, v₀) :: rest)
        = replay hash (g.push hash k₀ v₀).1 rest := rfl
    have hfresh₀ : g.get hash k₀ = none :=
      hfresh (k₀, v₀) (List.mem_cons_self _ _)
    rw [List.map_cons] at hnd
    have hnd₂ := List.nodup_cons.1 hnd
    have hnd' : (rest.map Prod.fst).Nodup := hnd₂.2
    have hk₀rest : k₀ ∉ rest.map Prod.fst := hnd₂.1
    have wf₁ : (g.push hash k₀ v₀).1.WF hash := push_wf wf hfresh₀
    have hfresh₁ : ∀ kv ∈ rest, (g.push hash k₀ v₀).1.get hash kv.1 = none := by
      intro kv hm
      have hne : kv.1 ≠ k₀ := by
        intro he
        apply hk₀rest
        rw [← he]
        exact List.mem_map.2 ⟨kv, hm, rfl⟩
      rw [push_get_other _ _ _ hne]
      exact hfresh kv (List.mem_cons_of_mem _ hm)
    obtain ⟨rwf, rseed, rblen, rlen, runch, rfind, rkeys⟩ := ih wf₁ hnd' hfresh₁
    rw [hrepl]
    refine ⟨rwf, ?_, ?_, ?_, ?_, ?_, ?_⟩
    · rw [rseed]
      rfl
    · rw [rblen, push_b_len]
    · rw [rlen, push_len]
      simp
      omega
    · intro k hk
      rw [List.map_cons, List.mem_cons] at hk
      push_neg at hk
      rw [runch k hk.2, push_get_other _ _ _ hk.1]
    · intro k v hm
      rcases List.mem_cons.1 hm with he | hm'
      · have hkk : k = k₀ ∧ v = v₀ := by simpa using he
        obtain ⟨rfl, rfl⟩ := hkk
        rw [runch k hk₀rest]
        exact push_get_self v wf.ne hfresh₀
      · exact rfind k v hm'
    · intro k' hk'
      rcases rkeys k' hk' with h | h
      · rcases push_hasKey_of h with h' | h'
        · exact Or.inl h'
        · refine Or.inr ?_
          rw [List.map_cons, h']
          exact List.mem_cons_self _ _
      · refine Or.inr ?_
        rw [List.map_cons]
        exact List.mem_cons_of_mem _ h

/-! ## `move_bucket` -/

theorem moveBucket_some {hash : HashFn K} {s : HMap K V}
    {b : List (K × V)} {m' : BucketList K V}
    (hb : s.main.bucket s.n_moved = (some b, m')) :
    moveBucket hash s
      = { n_moved := s.n_moved + 1, main := m',
          grow := replay hash
            (if s.n_moved = 0 then s.grow.set_buckets (s.main.b_len * 2)
             else s.grow) b } := by
  by_cases h0 : s.n_moved = 0
  · rw [h0] at hb
    simp only [moveBucket, h0, if_true, if_false, hb]
  · simp only [moveBucket, h0, if_true, if_false, hb]

theorem moveBucket_none {hash : HashFn K} {s : HMap K V}
    {m' : BucketList K V}
    (hb : s.main.bucket s.n_moved = (none, m')) :
    moveBucket hash s
      = { n_moved := 0,
          main := (if s.n_moved = 0 then s.grow.set_buckets (s.main.b_len * 2)
                   else s.grow),
          grow := s.main } := by
  by_cases h0 : s.n_moved = 0
  · rw [h0] at hb
    simp only [moveBucket, h0, if_true, if_false, hb]
  · simp only [moveBucket, h0, if_true, if_false, hb]

theorem moveBucket_spec {hash : HashFn K} {s : HMap K V} (wf : s.WF hash) :
    (moveBucket hash s).WF hash ∧
      (∀ k, (moveBucket hash s).get hash k = s.get hash k) ∧
      (moveBucket hash s).len = s.len := by
  set g₂ := if s.n_moved = 0 then s.grow.set_buckets (s.main.b_len * 2)
    else s.grow with hg₂
  have hg₂wf : g₂.WF hash := by
    rw [hg₂]
    by_cases h0 : s.n_moved = 0
    · rw [if_pos h0]
      exact set_buckets_wf wf.wfG (wf.stableEmpty h0) _
    · rw [if_neg h0]
      exact wf.wfG
  have hg₂get : ∀ k, g₂.get hash k = s.grow.get hash k := by
    intro k
    rw [hg₂]
    by_cases h0 : s.n_moved = 0
    · rw [if_pos h0, set_buckets_get wf.wfG (wf.stableEmpty h0) _ k,
        get_of_len_zero wf.wfG (wf.stableEmpty h0) k]
    · rw [if_neg h0]
  have hg₂len : g₂.len = s.grow.len := by
    rw [hg₂]
    by_cases h0 : s.n_moved = 0 <;> simp [h0, set_buckets_len]
  have hg₂haskey : ∀ k, g₂.hasKey k → s.grow.hasKey k := by
    intro k hk
    rw [hg₂] at hk
    by_cases h0 : s.n_moved = 0
    · rw [if_pos h0] at hk
      exact absurd hk
        (not_hasKey_of_len_zero (set_buckets_wf wf.wfG (wf.stableEmpty h0) _)
          (wf.stableEmpty h0) k)
    · rw [if_neg h0] at hk
      exact hk
  have hg₂blen : g₂.b_len = 2 * s.main.b_len := by
    rw [hg₂]
    by_cases h0 : s.n_moved = 0
    · rw [if_pos h0, set_buckets_b_len]
      have := wf.stableLe h0
      omega
    · rw [if_neg h0]
      exact wf.migrLen (Nat.pos_of_ne_zero h0)
  rcases hbk : s.main.bucket s.n_moved with ⟨ob, m'⟩
  cases ob with
  | some b =>
    have hlt : s.n_moved < s.main.buckets.length := by
      by_contra hge
      rw [bucket_out_of_range (Nat.le_of_not_lt hge)] at hbk
      simp at hbk
    have hfst : (s.main.bucket s.n_moved).1 = some b := by rw [hbk]
    have hsnd : (s.main.bucket s.n_moved).2 = m' := by rw [hbk]
    have hbb : b = s.main.buckets.getD s.n_moved [] := by
      have h2 := bucket_fst hlt
      rw [hfst, Option.some.injEq] at h2
      exact h2
    subst hbb
    have hm'wf : m'.WF hash := hsnd ▸ bucket_wf wf.wfM
    have hm'get : ∀ k, m'.get hash k
        = if hIdx hash s.main k = s.n_moved then none
          else s.main.get hash k := by
      intro k
      rw [← hsnd]
      exact bucket_get hlt k
    have hm'len : m'.len + (s.main.buckets.getD s.n_moved []).length
        = s.main.len := by
      rw [← hsnd]
      exact bucket_len_add wf.wfM hlt
    have hm'blen : m'.b_len = s.main.b_len := by
      rw [← hsnd]
      exact bucket_snd_b_len _ _
    have hm'buckets : m'.buckets = s.main.buckets.set s.n_moved [] := by
      rw [← hsnd]
      exact bucket_snd_buckets hlt
    have hm'haskey : ∀ k', m'.hasKey k' → s.main.hasKey k' := by
      intro k' h
      rw [← hsnd] at h
      exact bucket_hasKey_of h
    have hndb : ((s.main.buckets.getD s.n_moved []).map Prod.fst).Nodup :=
      wf.wfM.nodup _ (getD_mem hlt)
    have hfreshb : ∀ kv ∈ s.main.buckets.getD s.n_moved [],
        g₂.get hash kv.1 = none := by
      intro kv hkv
      rw [hg₂get kv.1]
      exact (get_eq_none_iff wf.wfG).2 (wf.disj kv.1 (taken_hasKey hlt kv hkv))
    obtain ⟨rwf, rseed, rblen, rlen, runch, rfind, rkeys⟩ :=
      replay_spec hg₂wf hndb hfreshb
    rw [moveBucket_some hbk, ← hg₂]
    refine ⟨?_, ?_, ?_⟩
    · constructor
      · exact hm'wf
      · exact rwf
      · intro k' h1 h2
        rcases rkeys k' h2 with hγ | hβ
        · exact wf.disj k' (hm'haskey k' h1) (hg₂haskey k' hγ)
        · rw [← hsnd] at h1
          exact bucket_not_hasKey_taken wf.wfM hlt hβ h1
      · intro h
        exact absurd h (Nat.succ_ne_zero _)
      · intro h
        exact absurd h (Nat.succ_ne_zero _)
      · intro _
        show (replay hash g₂ _).b_len = 2 * m'.b_len
        rw [rblen, hg₂blen, hm'blen]
      · show s.n_moved + 1 ≤ m'.b_len
        rw [hm'blen]
        exact hlt
      · intro i hi
        show m'.buckets[i]? = some []
        rw [hm'buckets]
        rcases Nat.lt_succ_iff_lt_or_eq.1 hi with h | h
        · rw [List.getElem?_set_ne (by omega : s.n_moved ≠ i)]
          exact wf.drained i h
        · subst h
          rw [List.getElem?_set_self hlt]
    · intro k
      show (m'.get hash k).or
          ((replay hash g₂ (s.main.buckets.getD s.n_moved [])).get hash k)
        = (s.main.get hash k).or (s.grow.get hash k)
      rw [hm'get k]
      by_cases hcase : hIdx hash s.main k = s.n_moved
      · rw [if_pos hcase]
        cases hf : listFind k (s.main.buckets.getD s.n_moved []) with
        | some v =>
          have hmain : s.main.get hash k = some v := by
            rw [get_eq_listFind_taken hcase, hf]
          rw [hmain, rfind k v (listFind_mem hf), Option.none_or,
            Option.or_some]
        | none =>
          have hmain : s.main.get hash k = none := by
            rw [get_eq_listFind_taken hcase, hf]
          have hknotb : k ∉ (s.main.buckets.getD s.n_moved []).map Prod.fst :=
            listFind_eq_none.1 hf
          rw [hmain, runch k hknotb, hg₂get k, Option.none_or]
      · rw [if_neg hcase]
        have hknotb : k ∉ (s.main.buckets.getD s.n_moved []).map Prod.fst := by
          intro hmem
          obtain ⟨kv₂, hkv₂, hfst₂⟩ := List.mem_map.1 hmem
          apply hcase
          rw [hIdx, ← hfst₂]
          exact wf.wfM.placed _ _ (getD_eq_of_lt hlt) kv₂ hkv₂
        rw [runch k hknotb, hg₂get k]
    · show m'.len + (replay hash g₂ (s.main.buckets.getD s.n_moved [])).len
        = s.main.len + s.grow.len
      rw [rlen, hg₂len]
      omega
  | none =>
    have hge : s.main.buckets.length ≤ s.n_moved := by
      by_contra hlt
      rw [Nat.not_le] at hlt
      have h2 := bucket_fst hlt
      rw [hbk] at h2
      simp at h2
    have hchainsnil : ∀ c ∈ s.main.buckets, c = [] := by
      intro c hc
      obtain ⟨i, hi⟩ := List.mem_iff_getElem?.1 hc
      have hilt : i < s.main.buckets.length := (List.getElem?_eq_some.1 hi).1
      have hd := wf.drained i (lt_of_lt_of_le hilt hge)
      rw [hi, Option.some.injEq] at hd
      exact hd
    have hmlen0 : s.main.len = 0 := by
      rw [wf.wfM.lenEq]
      apply List.sum_eq_zero
      intro x hx
      obtain ⟨c, hc, rfl⟩ := List.mem_map.1 hx
      rw [hchainsnil c hc]
      rfl
    rw [moveBucket_none hbk, ← hg₂]
    refine ⟨?_, ?_, ?_⟩
    · constructor
      · exact hg₂wf
      · exact wf.wfM
      · intro k' _ h2
        exact not_hasKey_of_len_zero wf.wfM hmlen0 k' h2
      · intro _
        exact hmlen0
      · intro _
        show s.main.b_len ≤ g₂.b_len
        rw [hg₂blen]
        omega
      · intro h
        exact absurd h (lt_irrefl 0)
      · exact Nat.zero_le _
      · intro i hi
        exact absurd hi (Nat.not_lt_zero i)
    · intro k
      show (g₂.get hash k).or (s.main.get hash k)
        = (s.main.get hash k).or (s.grow.get hash k)
      rw [hg₂get k, get_of_len_zero wf.wfM hmlen0 k, Option.or_none,
        Option.none_or]
    · show g₂.len + s.main.len = s.main.len + s.grow.len
      rw [hg₂len]
      omega

/-! ## `insert` -/

theorem insert_eq_of_main {hash : HashFn K} {s : HMap K V} {k : K} {v : V}
    {m' : BucketList K V} (hA : s.main.updateVal hash k v = some m') :
    s.insert hash k v = { s with main := m' } := by
  simp only [insert, hA]

theorem insert_eq_of_grow {hash : HashFn K} {s : HMap K V} {k : K} {v : V}
    {g' : BucketList K V} (hA : s.main.updateVal hash k v = none)
    (hB : s.grow.updateVal hash k v = some g') :
    s.insert hash k v = { s with grow := g' } := by
  simp only [insert, hA, hB]

theorem insert_eq_of_fresh_migr {hash : HashFn K} {s : HMap K V} {k : K}
    {v : V} (hA : s.main.updateVal hash k v = none)
    (hB : s.grow.updateVal hash k v = none) (h0 : 0 < s.n_moved) :
    s.insert hash k v
      = moveBucket hash { s with grow := (s.grow.push hash k v).1 } := by
  simp only [insert, hA, hB, if_pos h0]

theorem insert_eq_of_fresh_stable {hash : HashFn K} {s : HMap K V} {k : K}
    {v : V} (hA : s.main.updateVal hash k v = none)
    (hB : s.grow.updateVal hash k v = none) (h0 : ¬ 0 < s.n_moved) :
    s.insert hash k v
      = if (s.main.push hash k v).2 > BSIZE / 2
        then moveBucket hash { s with main := (s.main.push hash k v).1 }
        else { s with main := (s.main.push hash k v).1 } := by
  simp only [insert, hA, hB, if_neg h0]

theorem insert_spec {hash : HashFn K} {s : HMap K V} (wf : s.WF hash)
    (k : K) (v : V) :
    (s.insert hash k v).WF hash ∧
      (∀ k', (s.insert hash k v).get hash k'
        = if k' = k then some v else s.get hash k') ∧
      (s.insert hash k v).len
        = s.len + (if (s.get hash k).isSome then 0 else 1) := by
  cases hA : s.main.updateVal hash k v with
  | some m' =>
    obtain ⟨hseed, hlen, hblen, hkeys, hget, hget'⟩ := updateVal_some_spec hA
    have hwfM := updateVal_some_wf wf.wfM hA
    have hmain_some : s.main.get hash k ≠ none := by
      intro hc
      rw [← updateVal_eq_none (v := v)] at hc
      rw [hA] at hc
      cases hc
    rw [insert_eq_of_main hA]
    refine ⟨?_, ?_, ?_⟩
    · constructor
      · exact hwfM
      · exact wf.wfG
      · intro k' h1 h2
        exact wf.disj k' (hasKey_of_keys_le hkeys h1) h2
      · exact wf.stableEmpty
      · intro h0
        show s.grow.b_len ≤ m'.b_len
        rw [show m'.b_len = s.main.b_len from hblen]
        exact wf.stableLe h0
      · intro h0
        show s.grow.b_len = 2 * m'.b_len
        rw [show m'.b_len = s.main.b_len from hblen]
        exact wf.migrLen h0
      · show s.n_moved ≤ m'.b_len
        rw [show m'.b_len = s.main.b_len from hblen]
        exact wf.cursorLe
      · intro i hi
        exact keys_nil_preserved hkeys (wf.drained i hi)
    · intro k'
      show (m'.get hash k').or (s.grow.get hash k')
        = if k' = k then some v else s.get hash k'
      by_cases hk' : k' = k
      · subst hk'
        rw [if_pos rfl, hget, Option.or_some]
      · rw [if_neg hk', hget' k' hk']
        rfl
    · show m'.len + s.grow.len = s.len + _
      have : (s.get hash k).isSome = true := by
        rw [get]
        cases hm : s.main.get hash k with
        | none => exact absurd hm hmain_some
        | some v₂ => rw [Option.or_some]; rfl
      rw [this, if_pos rfl, hlen]
      rfl
  | none =>
    have hmain_none : s.main.get hash k = none := updateVal_eq_none.1 hA
    cases hB : s.grow.updateVal hash k v with
    | some g' =>
      obtain ⟨hseed, hlen, hblen, hkeys, hget, hget'⟩ := updateVal_some_spec hB
      have hwfG := updateVal_some_wf wf.wfG hB
      have hgrow_some : s.grow.get hash k ≠ none := by
        intro hc
        rw [← updateVal_eq_none (v := v)] at hc
        rw [hB] at hc
        cases hc
      rw [insert_eq_of_grow hA hB]
      refine ⟨?_, ?_, ?_⟩
      · constructor
        · exact wf.wfM
        · exact hwfG
        · intro k' h1 h2
          exact wf.disj k' h1 (hasKey_of_keys_le hkeys h2)
        · intro h0
          show g'.len = 0
          rw [hlen]
          exact wf.stableEmpty h0
        · intro h0
          show g'.b_len ≤ s.main.b_len
          rw [show g'.b_len = s.grow.b_len from hblen]
          exact wf.stableLe h0
        · intro h0
          show g'.b_len = 2 * s.main.b_len
          rw [show g'.b_len = s.grow.b_len from hblen]
          exact wf.migrLen h0
        · exact wf.cursorLe
        · exact wf.drained
      · intro k'
        show (s.main.get hash k').or (g'.get hash k')
          = if k' = k then some v else s.get hash k'
        by_cases hk' : k' = k
        · subst hk'
          rw [if_pos rfl, hmain_none, hget, Option.none_or]
        · rw [if_neg hk', hget' k' hk']
          rfl
      · show s.main.len + g'.len = s.len + _
        have : (s.get hash k).isSome = true := by
          rw [get, hmain_none, Option.none_or]
          cases hg : s.grow.get hash k with
          | none => exact absurd hg hgrow_some
          | some v₂ => rfl
        rw [this, if_pos rfl, hlen]
        rfl
    | none =>
      have hgrow_none : s.grow.get hash k = none := updateVal_eq_none.1 hB
      have hs_none : s.get hash k = none := by
        rw [get, hmain_none, hgrow_none]
        rfl
      have hnotSome : (s.get hash k).isSome = false := by
        rw [hs_none]
        rfl
      have hmainNotHas : ¬ s.main.hasKey k := (get_eq_none_iff wf.wfM).1 hmain_none
      have hgrowNotHas : ¬ s.grow.hasKey k := (get_eq_none_iff wf.wfG).1 hgrow_none
      by_cases h0 : 0 < s.n_moved
      · -- Migrating: push into grow, then one migration step
        rw [insert_eq_of_fresh_migr hA hB h0]
        have hs₁wf : ({ s with grow := (s.grow.push hash k v).1 } : HMap K V).WF hash := by
          constructor
          · exact wf.wfM
          · exact push_wf wf.wfG hgrow_none
          · intro k' h1 h2
            rcases push_hasKey_of h2 with h3 | h3
            · exact wf.disj k' h1 h3
            · subst h3
              exact hmainNotHas h1
          · intro hz
            have hz' : s.n_moved = 0 := hz
            exact absurd hz' (by omega)
          · intro hz
            have hz' : s.n_moved = 0 := hz
            exact absurd hz' (by omega)
          · intro _
            show (s.grow.push hash k v).1.b_len = 2 * s.main.b_len
            rw [push_b_len]
            exact wf.migrLen h0
          · exact wf.cursorLe
          · exact wf.drained
        obtain ⟨mwf, mget, mlen⟩ := moveBucket_spec hs₁wf
        refine ⟨mwf, ?_, ?_⟩
        · intro k'
          rw [mget k']
          show (s.main.get hash k').or ((s.grow.push hash k v).1.get hash k')
            = if k' = k then some v else s.get hash k'
          by_cases hk' : k' = k
          · subst hk'
            rw [if_pos rfl, hmain_none, push_get_self v wf.wfG.ne hgrow_none,
              Option.none_or]
          · rw [if_neg hk', push_get_other _ _ _ hk']
            rfl
        · rw [mlen, hnotSome, if_neg (by simp)]
          show s.main.len + (s.grow.push hash k v).1.len = s.len + 1
          rw [push_len]
          show s.main.len + (s.grow.len + 1) = s.main.len + s.grow.len + 1
          omega
      · -- Stable: push into main, maybe start a migration
        rw [insert_eq_of_fresh_stable hA hB h0]
        have hz : s.n_moved = 0 := by omega
        have hs'wf : ({ s with main := (s.main.push hash k v).1 } : HMap K V).WF hash := by
          constructor
          · exact push_wf wf.wfM hmain_none
          · exact wf.wfG
          · intro k' h1 h2
            rcases push_hasKey_of h1 with h3 | h3
            · exact wf.disj k' h3 h2
            · subst h3
              exact hgrowNotHas h2
          · exact wf.stableEmpty
          · intro _
            show s.grow.b_len ≤ (s.main.push hash k v).1.b_len
            rw [push_b_len]
            exact wf.stableLe hz
          · intro hp
            have hp' : 0 < s.n_moved := hp
            exact absurd hz (by omega)
          · show s.n_moved ≤ (s.main.push hash k v).1.b_len
            rw [push_b_len, hz]
            exact Nat.zero_le _
          · intro i hi
            rw [hz] at hi
            exact absurd hi (Nat.not_lt_zero i)
        have hget' : ∀ k',
            ({ s with main := (s.main.push hash k v).1 } : HMap K V).get hash k'
              = if k' = k then some v else s.get hash k' := by
          intro k'
          show ((s.main.push hash k v).1.get hash k').or (s.grow.get hash k')
            = if k' = k then some v else s.get hash k'
          by_cases hk' : k' = k
          · subst hk'
            rw [if_pos rfl, push_get_self v wf.wfM.ne hmain_none, Option.or_some]
          · rw [if_neg hk', push_get_other _ _ _ hk']
            rfl
        have hlen' :
            ({ s with main := (s.main.push hash k v).1 } : HMap K V).len
              = s.len + 1 := by
          show (s.main.push hash k v).1.len + s.grow.len = s.len + 1
          rw [push_len]
          show s.main.len + 1 + s.grow.len = s.main.len + s.grow.len + 1
          omega
        by_cases hth : (s.main.push hash k v).2 > BSIZE / 2
        · rw [if_pos hth]
          obtain ⟨mwf, mget, mlen⟩ := moveBucket_spec hs'wf
          refine ⟨mwf, ?_, ?_⟩
          · intro k'
            rw [mget k', hget' k']
          · rw [mlen, hlen', hnotSome, if_neg (by simp)]
        · rw [if_neg hth]
          refine ⟨hs'wf, hget', ?_⟩
          rw [hlen', hnotSome, if_neg (by simp)]

theorem new_wf (hash : HashFn K) (seedM seedG : Nat) :
    (new seedM seedG : HMap K V).WF hash := by
  constructor
  · exact BucketList.new_bank_wf hash seedM
  · exact BucketList.new_bank_wf hash seedG
  · intro k h1 h2
    simp [new, BucketList.new, BucketList.hasKey, BucketList.entries] at h1
  · intro _
    rfl
  · intro _
    exact Nat.le_refl 1
  · intro h
    exact absurd h (lt_irrefl 0)
  · exact Nat.zero_le _
  · intro i hi
    exact absurd hi (Nat.not_lt_zero i)

theorem reachable_wf {hash : HashFn K} {s : HMap K V}
    (h : Reachable hash s) : s.WF hash := by
  induction h with
  | new seedM seedG => exact new_wf hash seedM seedG
  | insert k v _ ih => exact (insert_spec ih k v).1

/-! ## Derived facts about runs of inserts -/

theorem get_new (hash : HashFn K) (sm sg : Nat) (k : K) :
    (new sm sg : HMap K V).get hash k = none := by
  rw [get]
  rw [show (new sm sg : HMap K V).main = BucketList.new sm from rfl,
    show (new sm sg : HMap K V).grow = BucketList.new sg from rfl,
    BucketList.new_get, BucketList.new_get]
  rfl

theorem len_new (sm sg : Nat) : (new sm sg : HMap K V).len = 0 := rfl

theorem runFrom_snoc (hash : HashFn K) (s : HMap K V) (l : List (K × V))
    (kv : K × V) :
    runFrom hash s (l ++ [kv]) = (runFrom hash s l).insert hash kv.1 kv.2 := by
  simp [runFrom, List.foldl_append]

theorem run_snoc (hash : HashFn K) (sm sg : Nat) (l : List (K × V))
    (kv : K × V) :
    run hash sm sg (l ++ [kv]) = (run hash sm sg l).insert hash kv.1 kv.2 :=
  runFrom_snoc hash _ l kv

theorem reachable_runFrom {hash : HashFn K} {s : HMap K V}
    (hs : Reachable hash s) (l : List (K × V)) :
    Reachable hash (runFrom hash s l) := by
  induction l generalizing s with
  | nil => exact hs
  | cons kv rest ih => exact ih (Reachable.insert kv.1 kv.2 hs)

theorem run_reachable (hash : HashFn K) (sm sg : Nat) (l : List (K × V)) :
    Reachable hash (run hash sm sg l : HMap K V) :=
  reachable_runFrom (Reachable.new sm sg) l

theorem get_runFrom_frame {hash : HashFn K} {k : K} {s : HMap K V}
    (wf : s.WF hash) (l : List (K × V)) (hl : ∀ kv ∈ l, kv.1 ≠ k) :
    (runFrom hash s l).get hash k = s.get hash k := by
  induction l generalizing s with
  | nil => rfl
  | cons kv rest ih =>
    have hstep : runFrom hash s (kv :: rest)
        = runFrom hash (s.insert hash kv.1 kv.2) rest := rfl
    rw [hstep, ih (insert_spec wf kv.1 kv.2).1
      (fun kv' h => hl kv' (List.mem_cons_of_mem _ h)),
      (insert_spec wf kv.1 kv.2).2.1 k,
      if_neg (fun he => hl kv (List.mem_cons_self _ _) he.symm)]

theorem run_get_isSome (hash : HashFn K) (sm sg : Nat) (l : List (K × V))
    (k : K) :
    ((run hash sm sg l : HMap K V).get hash k).isSome
      ↔ k ∈ l.map Prod.fst := by
  induction l using List.reverseRecOn with
  | nil =>
    rw [show (run hash sm sg [] : HMap K V) = new sm sg from rfl, get_new]
    simp
  | append_singleton t kv ih =>
    have hwf := reachable_wf (run_reachable hash sm sg t)
    rw [run_snoc, (insert_spec hwf kv.1 kv.2).2.1 k, List.map_append,
      List.map_cons, List.map_nil]
    by_cases hk : k = kv.1
    · simp [hk]
    · rw [if_neg hk]
      rw [ih]
      simp [hk]

theorem replay_b_len (hash : HashFn K) (g : BucketList K V)
    (b : List (K × V)) : (replay hash g b).b_len = g.b_len := by
  induction b generalizing g with
  | nil => rfl
  | cons kv rest ih =>
    have hstep : replay hash g (kv :: rest)
        = replay hash (g.push hash kv.1 kv.2).1 rest := rfl
    rw [hstep, ih, BucketList.push_b_len]

theorem replay_seed (hash : HashFn K) (g : BucketList K V)
    (b : List (K × V)) : (replay hash g b).seed = g.seed := by
  induction b generalizing g with
  | nil => rfl
  | cons kv rest ih =>
    have hstep : replay hash g (kv :: rest)
        = replay hash (g.push hash kv.1 kv.2).1 rest := rfl
    rw [hstep, ih]
    rfl

theorem moveBucket_cursor (hash : HashFn K) (s : HMap K V) :
    (moveBucket hash s).n_moved = s.n_moved + 1
      ∨ (moveBucket hash s).n_moved = 0 := by
  rcases hbk : s.main.bucket s.n_moved with ⟨ob, m'⟩
  cases ob with
  | some b =>
    left
    rw [moveBucket_some hbk]
  | none =>
    right
    rw [moveBucket_none hbk]

theorem isEmpty_eq_decide (s : HMap K V) :
    s.isEmpty = decide (s.len = 0) := by
  rw [isEmpty, len]
  by_cases h : s.main.len = 0 <;> by_cases h2 : s.grow.len = 0 <;>
    simp [h, h2]

theorem runFrom_congr {hash : HashFn K} (l : List (K × V)) :
    ∀ {s₁ s₂ : HMap K V}, s₁.WF hash → s₂.WF hash →
    (∀ k, s₁.get hash k = s₂.get hash k) → s₁.len = s₂.len →
    (∀ k, (runFrom hash s₁ l).get hash k = (runFrom hash s₂ l).get hash k) ∧
      (runFrom hash s₁ l).len = (runFrom hash s₂ l).len := by
  induction l with
  | nil =>
    intro s₁ s₂ _ _ hg hl
    exact ⟨hg, hl⟩
  | cons kv rest ih =>
    intro s₁ s₂ w₁ w₂ hg hl
    have h₁ := insert_spec w₁ kv.1 kv.2
    have h₂ := insert_spec w₂ kv.1 kv.2
    refine ih h₁.1 h₂.1 ?_ ?_
    · intro k
      rw [h₁.2.1 k, h₂.2.1 k, hg k]
    · rw [h₁.2.2, h₂.2.2, hl, hg kv.1]

end HMap

/-! # The claims -/

open HMap BucketList

/-- **C1** (read-your-write with migration transparency): starting from any
reachable state, immediately after `insert(k, v)` the call `get(k)` returns
`v`; it continues to return `v` across any later sequence of inserts whose
keys differ from `k` — including inserts that start, advance or complete a
migration — and a later `insert(k, v')` overwrites it, after which `get(k)`
returns `v'`. -/
theorem C1_read_your_write {hash : HashFn K} {s : HMap K V}
    (hs : HMap.Reachable hash s) (k : K) (v : V) (l : List (K × V))
    (hl : ∀ kv ∈ l, kv.1 ≠ k) :
    (s.insert hash k v).get hash k = some v ∧
      (HMap.runFrom hash (s.insert hash k v) l).get hash k = some v ∧
      (∀ v' : V,
        ((HMap.runFrom hash (s.insert hash k v) l).insert hash k v').get
          hash k = some v') := by
  have wf := HMap.reachable_wf hs
  have h₁ : (s.insert hash k v).get hash k = some v := by
    rw [(HMap.insert_spec wf k v).2.1 k, if_pos rfl]
  have wf' := (HMap.insert_spec wf k v).1
  have h₂ : (HMap.runFrom hash (s.insert hash k v) l).get hash k = some v := by
    rw [HMap.get_runFrom_frame wf' l hl, h₁]
  refine ⟨h₁, h₂, ?_⟩
  intro v'
  have wf'' := HMap.reachable_wf
    (HMap.reachable_runFrom (HMap.Reachable.insert k v hs) l)
  rw [(HMap.insert_spec wf'' k v').2.1 k, if_pos rfl]

/-- Witness for C1: a concrete run on `Nat` keys with the identity-like hash,
inserting key 5, then two other keys, then overwriting key 5. -/
theorem C1_witness :
    ((HMap.new 0 0 : HMap Nat Nat).insert (fun _ n => n) 5 7).get
        (fun _ n => n) 5 = some 7 ∧
      (HMap.runFrom (fun _ n => n)
        ((HMap.new 0 0 : HMap Nat Nat).insert (fun _ n => n) 5 7)
        [(1, 2), (2, 3)]).get (fun _ n => n) 5 = some 7 ∧
      ((HMap.runFrom (fun _ n => n)
        ((HMap.new 0 0 : HMap Nat Nat).insert (fun _ n => n) 5 7)
        [(1, 2), (2, 3)]).insert (fun _ n => n) 5 9).get (fun _ n => n) 5
        = some 9 :=
  have h := C1_read_your_write (HMap.Reachable.new 0 0) 5 7 [(1, 2), (2, 3)]
    (by decide)
  ⟨h.1, h.2.1, h.2.2 9⟩

/-- **C2** (uniqueness): after any finite sequence of inserts on a freshly
constructed map, `len` equals the number of distinct keys inserted. -/
theorem C2_uniqueness (hash : HashFn K) (seedM seedG : Nat)
    (l : List (K × V)) :
    (HMap.run hash seedM seedG l).len = (l.map Prod.fst).toFinset.card := by
  induction l using List.reverseRecOn with
  | nil =>
    rw [show (HMap.run hash seedM seedG [] : HMap K V)
      = HMap.new seedM seedG from rfl, HMap.len_new]
    simp
  | append_singleton t kv ih =>
    have hwf := HMap.reachable_wf (HMap.run_reachable hash seedM seedG t)
    rw [HMap.run_snoc, (HMap.insert_spec hwf kv.1 kv.2).2.2, ih,
      List.map_append, List.map_cons, List.map_nil, List.toFinset_append,
      Finset.union_comm]
    rw [show ([kv.1] : List K).toFinset = {kv.1} from rfl, ← Finset.insert_eq]
    by_cases hmem : kv.1 ∈ t.map Prod.fst
    · have hsome : ((HMap.run hash seedM seedG t).get hash kv.1).isSome :=
        (HMap.run_get_isSome hash seedM seedG t kv.1).2 hmem
      rw [if_pos hsome, Finset.insert_eq_self.2 (List.mem_toFinset.2 hmem)]
      omega
    · have hnone : ¬ ((HMap.run hash seedM seedG t).get hash kv.1).isSome := by
        rw [HMap.run_get_isSome]
        exact hmem
      rw [if_neg hnone,
        Finset.card_insert_of_not_mem (fun hmem₂ => hmem
          (List.mem_toFinset.1 hmem₂))]

/-- **C3** (no-duplication invariant): in every reachable state no key is in
both banks at once, and no chain of either bank holds two entries with equal
keys. -/
theorem C3_no_duplication {hash : HashFn K} {s : HMap K V}
    (hs : HMap.Reachable hash s) :
    (∀ k, ¬ (s.main.hasKey k ∧ s.grow.hasKey k)) ∧
      (∀ c ∈ s.main.buckets, (c.map Prod.fst).Nodup) ∧
      (∀ c ∈ s.grow.buckets, (c.map Prod.fst).Nodup) := by
  have wf := HMap.reachable_wf hs
  exact ⟨fun k h => wf.disj k h.1 h.2, wf.wfM.nodup, wf.wfG.nodup⟩

/-- Witness for C3: the key 0 is not in both banks of a concrete six-insert
run that crosses the migration threshold. -/
theorem C3_witness :
    ¬ ((HMap.run (fun _ n => n) 0 0
          [(0, 0), (1, 1), (2, 2), (3, 3), (4, 4), (5, 5)]).main.hasKey 0 ∧
        (HMap.run (fun _ n => n) 0 0
          [(0, 0), (1, 1), (2, 2), (3, 3), (4, 4), (5, 5)]).grow.hasKey 0) :=
  (C3_no_duplication (HMap.run_reachable (fun _ n => n) 0 0
    [(0, 0), (1, 1), (2, 2), (3, 3), (4, 4), (5, 5)])).1 0

/-- **C4** (migration trigger): in a reachable Stable state
(`migrated = 0`), inserting a fresh key pushes it into the active bank, and a
migration starts if and only if the chain length returned by that push
exceeds `BSIZE / 2 = 4`; starting one grows the overflow bank to exactly
`2 × active.bucket_count()`, drains bucket 0 of the active bank, replays all
of its entries into the overflow bank, and sets the cursor to 1. -/
theorem C4_migration_trigger {hash : HashFn K} {s : HMap K V}
    (hs : HMap.Reachable hash s) (h0 : s.n_moved = 0) (k : K) (v : V)
    (hfresh : s.get hash k = none) :
    BSIZE / 2 = 4 ∧
      ((s.main.push hash k v).2 ≤ BSIZE / 2 →
        s.insert hash k v = { s with main := (s.main.push hash k v).1 }) ∧
      ((s.main.push hash k v).2 > BSIZE / 2 →
        (s.insert hash k v).n_moved = 1 ∧
          (s.insert hash k v).grow.b_len = 2 * s.main.b_len ∧
          (s.insert hash k v).main = ((s.main.push hash k v).1.bucket 0).2 ∧
          (s.insert hash k v).main.buckets[0]? = some [] ∧
          (s.insert hash k v).grow
            = HMap.replay hash (s.grow.set_buckets (s.main.b_len * 2))
                ((s.main.push hash k v).1.buckets.getD 0 [])) := by
  have wf := HMap.reachable_wf hs
  rw [HMap.get] at hfresh
  have hmain_none : s.main.get hash k = none := (Option.or_eq_none.1 hfresh).1
  have hgrow_none : s.grow.get hash k = none := (Option.or_eq_none.1 hfresh).2
  have hA : s.main.updateVal hash k v = none := updateVal_eq_none.2 hmain_none
  have hB : s.grow.updateVal hash k v = none := updateVal_eq_none.2 hgrow_none
  have hnot : ¬ 0 < s.n_moved := by omega
  have heq := HMap.insert_eq_of_fresh_stable hA hB hnot
  refine ⟨rfl, ?_, ?_⟩
  · intro hle
    rw [heq, if_neg (by omega)]
  · intro hgt
    rw [heq, if_pos hgt]
    have hlt0 : 0 < (s.main.push hash k v).1.buckets.length := by
      rw [push_buckets, List.length_set]
      exact List.length_pos.2 wf.wfM.ne
    have hbk : ({ s with main := (s.main.push hash k v).1 } : HMap K V).main.bucket
        ({ s with main := (s.main.push hash k v).1 } : HMap K V).n_moved
        = (some ((s.main.push hash k v).1.buckets.getD 0 []),
           { (s.main.push hash k v).1 with
              buckets := (s.main.push hash k v).1.buckets.set 0 [],
              len := (s.main.push hash k v).1.len
                - ((s.main.push hash k v).1.buckets.getD 0 []).length }) := by
      show (s.main.push hash k v).1.bucket s.n_moved = _
      rw [h0]
      exact bucket_eq_of_lt hlt0
    rw [HMap.moveBucket_some hbk]
    refine ⟨?_, ?_, ?_, ?_, ?_⟩
    · show s.n_moved + 1 = 1
      omega
    · show (HMap.replay hash _ _).b_len = 2 * s.main.b_len
      rw [HMap.replay_b_len]
      rw [if_pos (show ({ s with main := (s.main.push hash k v).1 }
        : HMap K V).n_moved = 0 from h0)]
      show ((s.grow.set_buckets ((s.main.push hash k v).1.b_len * 2))).b_len
        = 2 * s.main.b_len
      rw [push_b_len, set_buckets_b_len]
      have := wf.stableLe h0
      unfold BucketList.b_len at *
      omega
    · show _ = ((s.main.push hash k v).1.bucket 0).2
      rw [bucket_eq_of_lt hlt0]
    · show (List.set (s.main.push hash k v).1.buckets 0 [])[0]? = some []
      exact List.getElem?_set_self hlt0
    · show HMap.replay hash _ _ = _
      rw [if_pos (show ({ s with main := (s.main.push hash k v).1 }
        : HMap K V).n_moved = 0 from h0)]
      show HMap.replay hash
          (s.grow.set_buckets ((s.main.push hash k v).1.b_len * 2)) _ = _
      rw [push_b_len]

/-- Witness for C4: inserting a fifth fresh key into a stable one-bucket map
starts a migration (`migrated = 1`, overflow grown to two buckets). -/
theorem C4_witness :
    (((HMap.run (fun _ n => n) 0 0
        [(0, 0), (1, 1), (2, 2), (3, 3)]).insert (fun _ n => n) 4 4).n_moved
        = 1 ∧
      ((HMap.run (fun _ n => n) 0 0
        [(0, 0), (1, 1), (2, 2), (3, 3)]).insert (fun _ n => n) 4 4).grow.b_len
        = 2 * (HMap.run (fun _ n => n) 0 0
            [(0, 0), (1, 1), (2, 2), (3, 3)]).main.b_len) :=
  have h := C4_migration_trigger
    (HMap.run_reachable (fun _ n => n) 0 0 [(0, 0), (1, 1), (2, 2), (3, 3)])
    (by decide) 4 4 (by decide)
  have h5 := h.2.2 (by decide)
  ⟨h5.1, h5.2.1⟩

/-- **C5** counterexample: after six inserts with distinct keys the map has
completed one full migration and is Stable again, but the overflow bank then
has 1 bucket while the active bank has 2 — the two bucket counts differ, so
the claim as stated is false. -/
theorem C5_counterexample :
    ¬ (∀ s : HMap Nat Nat, HMap.Reachable (fun _ n => n) s → s.n_moved = 0 →
        s.grow.len = 0 ∧ s.grow.b_len = s.main.b_len) := by
  intro hclaim
  have h := hclaim
    (HMap.run (fun _ n => n) 0 0 [(0, 0), (1, 1), (2, 2), (3, 3), (4, 4), (5, 5)])
    (HMap.run_reachable (fun _ n => n) 0 0
      [(0, 0), (1, 1), (2, 2), (3, 3), (4, 4), (5, 5)])
    (by decide)
  have hne : (HMap.run (fun _ n => n) 0 0
        [(0, 0), (1, 1), (2, 2), (3, 3), (4, 4), (5, 5)]).grow.b_len
      ≠ (HMap.run (fun _ n => n) 0 0
        [(0, 0), (1, 1), (2, 2), (3, 3), (4, 4), (5, 5)]).main.b_len := by
    decide
  exact hne h.2

/-- **C5** amended: in every reachable state with `migrated = 0` the overflow
bank is empty (count 0) and its bucket count is at most the active bank's
(equality fails once a migration has completed: the drained old active bank,
half the size of the new one, becomes the overflow bank). -/
theorem C5_stable_overflow {hash : HashFn K} {s : HMap K V}
    (hs : HMap.Reachable hash s) (h0 : s.n_moved = 0) :
    s.grow.len = 0 ∧ s.grow.b_len ≤ s.main.b_len := by
  have wf := HMap.reachable_wf hs
  exact ⟨wf.stableEmpty h0, wf.stableLe h0⟩

/-- Witness for the amended C5, at the six-insert post-migration state. -/
theorem C5_witness :
    (HMap.run (fun _ n => n) 0 0
        [(0, 0), (1, 1), (2, 2), (3, 3), (4, 4), (5, 5)]).grow.len = 0 ∧
      (HMap.run (fun _ n => n) 0 0
        [(0, 0), (1, 1), (2, 2), (3, 3), (4, 4), (5, 5)]).grow.b_len
        ≤ (HMap.run (fun _ n => n) 0 0
          [(0, 0), (1, 1), (2, 2), (3, 3), (4, 4), (5, 5)]).main.b_len :=
  C5_stable_overflow
    (HMap.run_reachable (fun _ n => n) 0 0
      [(0, 0), (1, 1), (2, 2), (3, 3), (4, 4), (5, 5)])
    (by decide)

/-- **C6** (`take_bucket` semantics): on any bank satisfying the
representation invariant, `bucket i` with `i` in range returns exactly chain
`i`, leaves that chain empty, decrements `count` by the chain's length and
changes nothing else (no other chain, not the seed, not the bucket count);
with `i` out of range it returns `none` and leaves the bank entirely
unchanged. -/
theorem C6_take_bucket {bl : BucketList K V} (rep : bl.RepOk) (i : Nat) :
    (i < bl.b_len →
      (bl.bucket i).1 = some (bl.buckets.getD i []) ∧
        (bl.bucket i).2.len + (bl.buckets.getD i []).length = bl.len ∧
        (bl.bucket i).2.buckets[i]? = some [] ∧
        (∀ j : Nat, j ≠ i → (bl.bucket i).2.buckets[j]? = bl.buckets[j]?) ∧
        (bl.bucket i).2.seed = bl.seed ∧
        (bl.bucket i).2.b_len = bl.b_len) ∧
    (bl.b_len ≤ i → bl.bucket i = (none, bl)) := by
  constructor
  · intro h
    refine ⟨bucket_fst h, ?_, ?_, ?_, bucket_snd_seed bl i,
      bucket_snd_b_len bl i⟩
    · rw [bucket_snd_len h]
      have hle : (bl.buckets.getD i []).length ≤ bl.len := by
        rw [rep.lenEq, ← getD_map_length]
        exact getD_le_sum _ i
      omega
    · rw [bucket_snd_buckets h]
      exact List.getElem?_set_self h
    · intro j hj
      rw [bucket_snd_buckets h]
      exact List.getElem?_set_ne (fun hh => hj hh.symm)
  · intro h
    exact bucket_out_of_range h

/-- Witness for C6: taking bucket 1 of a concrete two-bucket bank returns its
chain and empties it; taking bucket 7 is out of range and is the identity. -/
theorem C6_witness :
    ((⟨0, 3, [[(1, 10)], [(2, 20), (3, 30)]]⟩
        : BucketList Nat Nat).bucket 1).1 = some
      ((⟨0, 3, [[(1, 10)], [(2, 20), (3, 30)]]⟩
        : BucketList Nat Nat).buckets.getD 1 []) ∧
    ((⟨0, 3, [[(1, 10)], [(2, 20), (3, 30)]]⟩
        : BucketList Nat Nat).bucket 1).2.len
      + ((⟨0, 3, [[(1, 10)], [(2, 20), (3, 30)]]⟩
          : BucketList Nat Nat).buckets.getD 1 []).length = 3 ∧
    (⟨0, 3, [[(1, 10)], [(2, 20), (3, 30)]]⟩
        : BucketList Nat Nat).bucket 7
      = (none, ⟨0, 3, [[(1, 10)], [(2, 20), (3, 30)]]⟩) :=
  have h := C6_take_bucket
    ((⟨by decide, by decide⟩ :
      (⟨0, 3, [[(1, 10)], [(2, 20), (3, 30)]]⟩ : BucketList Nat Nat).RepOk)) 1
  have h7 := C6_take_bucket
    ((⟨by decide, by decide⟩ :
      (⟨0, 3, [[(1, 10)], [(2, 20), (3, 30)]]⟩ : BucketList Nat Nat).RepOk)) 7
  ⟨(h.1 (by decide)).1, (h.1 (by decide)).2.1, h7.2 (by decide)⟩

/-- **C7** (bank representation invariant): a fresh bank satisfies
`count = Σ chain lengths ∧ bucket_count ≥ 1`, and every operation — `push`,
the `get_mut` write-through (`updateVal`; plain `get` does not mutate),
`bucket` and `set_buckets` — preserves it, so it holds in every reachable
bank state. -/
theorem C7_rep_invariant (hash : HashFn K) :
    (∀ seed : Nat, (BucketList.new seed : BucketList K V).RepOk) ∧
      (∀ (bl : BucketList K V) (k : K) (v : V), bl.RepOk →
        (bl.push hash k v).1.RepOk) ∧
      (∀ (bl bl' : BucketList K V) (k : K) (v : V),
        bl.updateVal hash k v = some bl' → bl.RepOk → bl'.RepOk) ∧
      (∀ (bl : BucketList K V) (n : Nat), bl.RepOk → (bl.bucket n).2.RepOk) ∧
      (∀ (bl : BucketList K V) (n : Nat), bl.RepOk →
        (bl.set_buckets n).RepOk) :=
  ⟨fun seed => new_repOk seed,
   fun _ k v rep => push_repOk rep k v,
   fun _ _ _ _ h rep => updateVal_repOk h rep,
   fun _ _ rep => bucket_repOk rep,
   fun _ n rep => set_buckets_repOk rep n⟩

/-- Witness for C7: the invariant holds for a fresh bank and survives a
concrete `push` and a concrete `set_buckets`. -/
theorem C7_witness :
    (BucketList.new 0 : BucketList Nat Nat).RepOk ∧
      ((BucketList.new 0 : BucketList Nat Nat).push (fun _ n => n) 3 4).1.RepOk ∧
      (((BucketList.new 0 : BucketList Nat Nat).push
        (fun _ n => n) 3 4).1.set_buckets 4).RepOk :=
  have h := C7_rep_invariant (K := Nat) (V := Nat) (fun _ n => n)
  have h0 := h.1 0
  have h1 := h.2.1 (BucketList.new 0) 3 4 h0
  ⟨h0, h1, h.2.2.2.2 _ 4 h1⟩

/-- **C8** (migration geometry): in every reachable state the cursor never
exceeds the active bank's bucket count, and whenever a migration is under way
(`migrated > 0`) the overflow bank has exactly twice the active bank's
buckets. -/
theorem C8_migration_geometry {hash : HashFn K} {s : HMap K V}
    (hs : HMap.Reachable hash s) :
    s.n_moved ≤ s.main.b_len ∧
      (0 < s.n_moved → s.grow.b_len = 2 * s.main.b_len) :=
  ⟨(HMap.reachable_wf hs).cursorLe, (HMap.reachable_wf hs).migrLen⟩

/-- Witness for C8 at a mid-migration state (five inserts, `migrated = 1`). -/
theorem C8_witness :
    (HMap.run (fun _ n => n) 0 0
        [(0, 0), (1, 1), (2, 2), (3, 3), (4, 4)]).n_moved
      ≤ (HMap.run (fun _ n => n) 0 0
        [(0, 0), (1, 1), (2, 2), (3, 3), (4, 4)]).main.b_len ∧
    (HMap.run (fun _ n => n) 0 0
        [(0, 0), (1, 1), (2, 2), (3, 3), (4, 4)]).grow.b_len
      = 2 * (HMap.run (fun _ n => n) 0 0
        [(0, 0), (1, 1), (2, 2), (3, 3), (4, 4)]).main.b_len :=
  have h := C8_migration_geometry
    (HMap.run_reachable (fun _ n => n) 0 0
      [(0, 0), (1, 1), (2, 2), (3, 3), (4, 4)])
  ⟨h.1, h.2 (by decide)⟩

/-- **C9** (one-bucket pacing): a single `insert` call either leaves the
migration cursor unchanged, advances it by exactly one, or resets it to 0
(the drain-complete swap) — it never drains more than one bucket, for any
state whatsoever. -/
theorem C9_one_bucket_pacing (hash : HashFn K) (s : HMap K V) (k : K)
    (v : V) :
    (s.insert hash k v).n_moved = s.n_moved
      ∨ (s.insert hash k v).n_moved = s.n_moved + 1
      ∨ (s.insert hash k v).n_moved = 0 := by
  cases hA : s.main.updateVal hash k v with
  | some m' =>
    left
    rw [HMap.insert_eq_of_main hA]
  | none =>
    cases hB : s.grow.updateVal hash k v with
    | some g' =>
      left
      rw [HMap.insert_eq_of_grow hA hB]
    | none =>
      by_cases h0 : 0 < s.n_moved
      · rw [HMap.insert_eq_of_fresh_migr hA hB h0]
        rcases HMap.moveBucket_cursor hash
          { s with grow := (s.grow.push hash k v).1 } with h | h
        · right
          left
          exact h
        · right
          right
          exact h
      · rw [HMap.insert_eq_of_fresh_stable hA hB h0]
        by_cases hth : (s.main.push hash k v).2 > BSIZE / 2
        · rw [if_pos hth]
          rcases HMap.moveBucket_cursor hash
            { s with main := (s.main.push hash k v).1 } with h | h
          · right
            left
            exact h
          · right
            right
            exact h
        · rw [if_neg hth]
          left
          rfl

/-- **C10** (seed noninterference): for any insert sequence, the observable
results of `get`, `len` and `is_empty` are identical in two runs that differ
only in the random seeds drawn at bank construction — for every choice of
the (abstract) seeded hash function. -/
theorem C10_seed_noninterference (hash : HashFn K) (sm sg sm' sg' : Nat)
    (l : List (K × V)) :
    (∀ k, (HMap.run hash sm sg l).get hash k
        = (HMap.run hash sm' sg' l).get hash k) ∧
      (HMap.run hash sm sg l).len = (HMap.run hash sm' sg' l).len ∧
      (HMap.run hash sm sg l).isEmpty = (HMap.run hash sm' sg' l).isEmpty := by
  have h := HMap.runFrom_congr l (HMap.new_wf hash sm sg)
    (HMap.new_wf hash sm' sg')
    (fun k => by rw [HMap.get_new, HMap.get_new]) rfl
  refine ⟨h.1, h.2, ?_⟩
  have hl : (HMap.run hash sm sg l).len = (HMap.run hash sm' sg' l).len := h.2
  rw [HMap.isEmpty_eq_decide, HMap.isEmpty_eq_decide, hl]

end HmapVerify
